import Mathlib

/-!
# Shardbound v4 — combat engine verification

A shallow embedding of the combat-resolution core of the Shardbound v4
prototype, together with proofs of the specified properties.

The embedding covers:

* `static/js/systems/resourceManager.js` — typed resource pools
  (key normalization, cost validation, all-or-nothing deduction,
  clamped adjustment, per-round regeneration, max resolution);
* `static/js/systems/combatManager.js` — the accuracy / damage
  calculator (`computeHit`, `computeDamage`, `resolveAttack`);
* the in-scene battle model (`BattleScene` and the scene variant
  documented in `docs/developer_login_flow.md`) — K_DEF soft-cap
  mitigation (`_calcDamage`), shield absorption (`_applyDamage`),
  and the enemy decision cascade of `_enemyTurn`.

JavaScript numbers are modelled as rationals (`ℚ`); values that round
to integers (damage totals, d100 rolls) are `ℤ`.  JavaScript objects
holding dynamic keys are association lists; an absent property is
`Option.none`.  Every random draw of the source (`Math.random()` or an
injected rng) is an explicit `ℚ` parameter in `[0, 1)`.
-/

namespace Shardbound

/-! ## Character helpers

JavaScript `String.prototype.toLowerCase` / `trim`, modelled over the
ASCII range actually used by resource keys.  `lowerChar` maps `A`-`Z`
(codepoints 65–90) to `a`-`z`; `isWsChar` recognizes the ASCII
whitespace that `trim` strips.
-/

def lowerChar (c : Char) : Char :=
  if 65 ≤ c.toNat ∧ c.toNat ≤ 90 then Char.ofNat (c.toNat + 32) else c

def isWsChar (c : Char) : Bool :=
  c.toNat = 32 || c.toNat = 9 || c.toNat = 10 || c.toNat = 13

def trimL (l : List Char) : List Char := l.dropWhile isWsChar

def trimR (l : List Char) : List Char := ((l.reverse).dropWhile isWsChar).reverse

def trimChars (l : List Char) : List Char := trimR (trimL l)

/-- First-match association-list lookup: the JS `obj[key]` read. -/
def alookup {A : Type} (l : List (String × A)) (k : String) : Option A :=
  match l with
  | [] => none
  | (q, v) :: rest => if q = k then some v else alookup rest k

/-- Replace the value stored under `k` (first match only); no-op when
the key is absent.  Models mutating a property of an object found by
lookup. -/
def aupdate {A : Type} (l : List (String × A)) (k : String) (v : A) : List (String × A) :=
  match l with
  | [] => []
  | (q, w) :: rest => if q = k then (q, v) :: rest else (q, w) :: aupdate rest k v

/-- Set-or-append: the JS `obj[key] = v` write. -/
def aset {A : Type} (l : List (String × A)) (k : String) (v : A) : List (String × A) :=
  match l with
  | [] => [(k, v)]
  | (q, w) :: rest => if q = k then (q, v) :: rest else (q, w) :: aset rest k v

/-! ## resourceManager.js -/

/-- The `RESOURCE_ALIASES` table of resourceManager.js. -/
def RESOURCE_ALIASES : List (String × String) :=
  [("hp", "hp"), ("mp", "mana"), ("mana", "mana"), ("sp", "stamina"),
   ("stamina", "stamina"), ("energy", "energy"), ("focus", "focus"),
   ("faith", "faith"), ("chi", "ki"), ("ki", "ki"), ("rage", "rage"),
   ("fury", "rage")]

/-- Alias resolution: `RESOURCE_ALIASES[lower] || lower`. -/
def aliasApply (s : String) : String :=
  (alookup RESOURCE_ALIASES s).getD s

/-- Key canonicalization, `normalizeResourceKey(name)`: trim, reject the empty string,
lowercase, then apply the alias table. -/
def normalizeResourceKey (name : String) : Option String :=
  let t := trimChars name.data
  if t = [] then none
  else some (aliasApply (String.mk (t.map lowerChar)))

/-- A resource pool (`player.resources[key]` in resourceManager.js). -/
structure Pool where
  label : String
  current : ℚ
  max : ℚ
  regenPerTurn : ℚ
  tiesToStat : Option String
deriving DecidableEq

/-- A combatant as the resource manager sees it: a bag of numeric
fields (`player.mp`, `player.mpMax`, tied stats, legacy flat stats …)
plus the `resources` map. -/
structure Player where
  fields : List (String × ℚ)
  resources : List (String × Pool)
deriving DecidableEq

def getField (pl : Player) (k : String) : Option ℚ := alookup pl.fields k

def lookupRes (pl : Player) (k : String) : Option Pool := alookup pl.resources k

/-- Clamping, `clampValue(value, min, max)`, with a finite `max`. -/
def clampValue (v mn mx : ℚ) : ℚ := max mn (min mx v)

/-- Clamping, `clampValue(value, min)` — the default `max = Infinity` collapses
the upper bound, leaving `Math.max(min, n)`. -/
def clampMin (v mn : ℚ) : ℚ := max mn v

/-- Amount sanitization, `safeAmount(value)`: non-finite inputs are out of the model; a
finite amount is floored at 0. -/
def safeAmount (v : ℚ) : ℚ := max 0 v

/-- The two cost/gain map shapes used by the engine's catalogs: a bare
number (interpreted against the fallback key) or a `{key: amount}`
object, given as its entry list.  (The array form accepted by
`normalizeResourceMap` is exercised nowhere in the claims and is not
modelled.) -/
inductive CostMap where
  | num : ℚ → CostMap
  | obj : List (String × ℚ) → CostMap
deriving DecidableEq

/-- The `add` closure of `normalizeResourceMap`: merge an amount into
the insertion-ordered accumulator, summing on key collision. -/
def addEntry (out : List (String × ℚ)) (k : String) (a : ℚ) : List (String × ℚ) :=
  match out with
  | [] => [(k, a)]
  | (q, v) :: rest => if q = k then (q, v + a) :: rest else (q, v) :: addEntry rest k a

/-- Cost-map normalization, `normalizeResourceMap(map, fallbackKey)`: normalize keys, keep only
positive amounts, merge duplicates. -/
def normalizeResourceMap (m : Option CostMap) (fallbackKey : Option String) :
    List (String × ℚ) :=
  match m with
  | none => []
  | some (.num n) =>
    match fallbackKey.bind normalizeResourceKey with
    | some k => if 0 < safeAmount n then [(k, safeAmount n)] else []
    | none => []
  | some (.obj entries) =>
    entries.foldl (fun out e =>
      match normalizeResourceKey e.1 with
      | some k => if 0 < safeAmount e.2 then addEntry out k (safeAmount e.2) else out
      | none => out) []

/-- Result record of `validateResourceCost` (`missing` keeps the
`{key, required, available}` triples in entry order). -/
structure ValidateOutcome where
  ok : Bool
  missing : List (String × ℚ × ℚ)
  entries : List (String × ℚ)
deriving DecidableEq

/-- Affordability check, `validateResourceCost(player, costMap, fallbackKey)`: an entry is
missing when no pool exists for its key or the pool's current value is
below the required amount. -/
def validateResourceCost (pl : Player) (m : Option CostMap) (fallbackKey : Option String) :
    ValidateOutcome :=
  let entries := normalizeResourceMap m fallbackKey
  let missing := entries.filterMap (fun e =>
    match lookupRes pl e.1 with
    | none => some (e.1, e.2, 0)
    | some pool => if pool.current < e.2 then some (e.1, e.2, pool.current) else none)
  ⟨missing.isEmpty, missing, entries⟩

/-- The delta record returned by `adjustResource`. -/
structure AdjustDelta where
  key : String
  previous : ℚ
  current : ℚ
  delta : ℚ
  max : ℚ
deriving DecidableEq

/-- Pool adjustment, `adjustResource(player, key, delta)`: look the pool up under the
canonical key, clamp `current + delta` into `[0, max(0, pool.max)]`,
write it back (mirroring `mp`/`mpMax` for mana), and report the delta.
Returns the player unchanged (and `none`) when the key does not
normalize or no pool exists. -/
def adjustResource (pl : Player) (key : String) (delta : ℚ) :
    Player × Option AdjustDelta :=
  match normalizeResourceKey key with
  | none => (pl, none)
  | some canonical =>
    match lookupRes pl canonical with
    | none => (pl, none)
    | some pool =>
      let before := pool.current
      let mx := clampMin pool.max 0
      let after := clampValue (before + delta) 0 mx
      let rs := aupdate pl.resources canonical { pool with current := after }
      let fs := if canonical = "mana"
        then aset (aset pl.fields "mp" after) "mpMax" mx
        else pl.fields
      (⟨fs, rs⟩, some ⟨canonical, before, after, after - before, mx⟩)

/-- Affordability test `canSpend(player, key, amount)`. -/
def canSpend (pl : Player) (key : String) (amount : ℚ) : Bool :=
  match normalizeResourceKey key with
  | none => false
  | some canonical =>
    match lookupRes pl canonical with
    | none => false
    | some pool => safeAmount amount ≤ pool.current

/-- Deduction helper `spend(player, key, amount)`: guarded single-resource deduction. -/
def spend (pl : Player) (key : String) (amount : ℚ) : Player × Bool :=
  match normalizeResourceKey key with
  | none => (pl, false)
  | some canonical =>
    if canSpend pl canonical amount
    then ((adjustResource pl canonical (-(safeAmount amount))).1, true)
    else (pl, false)

/-- The deduction loop of `applyResourceCost`: adjust each validated
entry in order, collecting the non-null deltas. -/
def payEntries (pl : Player) (entries : List (String × ℚ)) :
    Player × List AdjustDelta :=
  match entries with
  | [] => (pl, [])
  | e :: rest =>
    let step := adjustResource pl e.1 (-e.2)
    let restOut := payEntries step.1 rest
    (restOut.1, match step.2 with
      | some d => d :: restOut.2
      | none => restOut.2)

/-- Result of `applyResourceCost` / `applyResourceGain` together with
the (otherwise mutated-in-place) player. -/
structure CostOutcome where
  player : Player
  ok : Bool
  missing : List (String × ℚ × ℚ)
  entries : List (String × ℚ)
  deltas : List AdjustDelta
deriving DecidableEq

/-- Deduction, `applyResourceCost(player, costMap, fallbackKey)`: validate every
entry first; deduct nothing on failure, otherwise deduct every entry. -/
def applyResourceCost (pl : Player) (m : Option CostMap) (fallbackKey : Option String) :
    CostOutcome :=
  let check := validateResourceCost pl m fallbackKey
  if check.ok then
    let paid := payEntries pl check.entries
    ⟨paid.1, check.ok, check.missing, check.entries, paid.2⟩
  else ⟨pl, check.ok, check.missing, check.entries, []⟩

/-- The gain loop of `applyResourceGain`. -/
def gainEntries (pl : Player) (entries : List (String × ℚ)) :
    Player × List AdjustDelta :=
  match entries with
  | [] => (pl, [])
  | e :: rest =>
    let step := adjustResource pl e.1 e.2
    let restOut := gainEntries step.1 rest
    (restOut.1, match step.2 with
      | some d => d :: restOut.2
      | none => restOut.2)

/-- Restoration, `applyResourceGain(player, map, fallbackKey)`: unvalidated clamped
restoration. -/
def applyResourceGain (pl : Player) (m : Option CostMap) (fallbackKey : Option String) :
    CostOutcome :=
  let entries := normalizeResourceMap m fallbackKey
  let gained := gainEntries pl entries
  ⟨gained.1, true, [], entries, gained.2⟩

/-- Regeneration, `regenTurn(player)`: for every pool with truthy (non-zero)
`regenPerTurn`, adjust by that amount. -/
def regenTurn (pl : Player) : Player :=
  (pl.resources.map (fun kp => (kp.1, kp.2.regenPerTurn))).foldl
    (fun p kr => if kr.2 ≠ 0 then (adjustResource p kr.1 kr.2).1 else p) pl

/-- Domain defaults, `RESOURCE_DEFAULT_MAX` / `computeDefaultMax(key, player)`: mana
falls back to `pickNumber(player.mpMax, player.mp, 0)`, the other known
kinds to 100, anything else (including hp) to 0. -/
def computeDefaultMax (key : String) (pl : Player) : ℚ :=
  if key = "mana" then ((getField pl "mpMax").or (getField pl "mp")).getD 0
  else if key = "stamina" ∨ key = "energy" ∨ key = "focus" ∨ key = "faith"
      ∨ key = "ki" ∨ key = "rage" then 100
  else 0

/-- The slice of a catalog resource definition read by
`computeResourceMax` (`def.max`, `def.maxFromStat`). -/
structure ResDefn where
  max : Option ℚ
  maxFromStat : Option String
deriving DecidableEq

/-- Steps 3–5 of `computeResourceMax`: the combatant's `<key>Max`
field, then (mana only) the legacy `mpMax`/`mp` fields, then the
domain default. -/
def computeResourceMaxRest (key : String) (pl : Player) : ℚ :=
  match getField pl (key ++ "Max") with
  | some fromPlayerKey => clampMin fromPlayerKey 0
  | none =>
    if key = "mana" then
      match (getField pl "mpMax").or (getField pl "mp") with
      | some mp => clampMin mp 0
      | none => clampMin (computeDefaultMax key pl) 0
    else clampMin (computeDefaultMax key pl) 0

/-- Max resolution, `computeResourceMax(key, def, player)`: explicit declared max,
else a truthy `maxFromStat` resolved on the combatant, else the
remaining fallback chain. -/
def computeResourceMax (key : String) (rdef : ResDefn) (pl : Player) : ℚ :=
  match rdef.max with
  | some explicit => clampMin explicit 0
  | none =>
    match rdef.maxFromStat with
    | some statName =>
      if statName = "" then computeResourceMaxRest key pl
      else
        match getField pl statName with
        | some fromStat => clampMin fromStat 0
        | none => computeResourceMaxRest key pl
    | none => computeResourceMaxRest key pl

/-! ## combatManager.js -/

/-- The calculator helper `clamp(n, min, max)`. -/
def clamp (n mn mx : ℚ) : ℚ := max mn (min mx n)

/-- The roll `rollD100(rng)`: `Math.floor(rng() * 100) + 1` for a draw
`q ∈ [0, 1)`. -/
def rollD100 (q : ℚ) : ℤ := ⌊q * 100⌋ + 1

/-- JavaScript `Math.round`: half-up rounding, `⌊x + 1/2⌋`. -/
def jsRound (x : ℚ) : ℤ := ⌊x + 1 / 2⌋

/-- Percent clamping, `getPercent`: clamp a percentage into `[0, 100]`. -/
def getPercent (v : ℚ) : ℚ := clamp v 0 100

/-- JS `a || b` on an optional string: the empty string is falsy. -/
def orTruthy (o : Option String) (dflt : String) : String :=
  match o with
  | some s => if s = "" then dflt else s
  | none => dflt

/-- A raw actor object as handed to `resolveAttack`: `stats`,
`resist` and `resources` property bags. -/
structure RawActor where
  name : Option String
  stats : List (String × ℚ)
  resist : List (String × ℚ)
  resources : List (String × ℚ)
deriving DecidableEq

/-- Fallback-chained stat read, `getNumber(actor, [bag, k1], getNumber(actor, [bag, k2], 0))`. -/
def getNum2 (l : List (String × ℚ)) (k1 k2 : String) : ℚ :=
  ((alookup l k1).or (alookup l k2)).getD 0

/-- The normalized actor produced by `defaultNormalizeActor` (the
source's `def` field is spelled `defense`; `resources.mp` is `mp`). -/
structure NormActor where
  name : String
  accuracy : ℚ
  evasion : ℚ
  atk : ℚ
  defense : ℚ
  magAtk : ℚ
  magRes : ℚ
  mp : ℚ
  resFire : ℚ
  resFrost : ℚ
  resLightning : ℚ
  resPoison : ℚ
deriving DecidableEq

/-- The default normalizer `defaultNormalizeActor(actor)`. -/
def defaultNormalizeActor (a : RawActor) : NormActor :=
  ⟨a.name.getD "Unknown",
   getNum2 a.stats "ACC" "DEX",
   getNum2 a.stats "EVA" "DEX",
   getNum2 a.stats "ATK" "STR",
   getNum2 a.stats "DEF" "ARMOR",
   getNum2 a.stats "MAG" "INT",
   getNum2 a.stats "MRES" "WIS",
   ((alookup a.resources "mp").or (alookup a.stats "MP")).getD 0,
   getPercent ((alookup a.resist "fire").getD 0),
   getPercent ((alookup a.resist "frost").getD 0),
   getPercent ((alookup a.resist "lightning").getD 0),
   getPercent ((alookup a.resist "poison").getD 0)⟩

/-- An ability payload (`base`, optional `variance` / `accuracyBonus` /
`powerBonus` / `element` / `mpCost`). -/
structure Ability where
  name : String
  atype : String
  base : ℚ
  variance : Option ℚ
  accuracyBonus : Option ℚ
  powerBonus : Option ℚ
  element : Option String
  mpCost : Option ℚ
deriving DecidableEq

/-- The defender's stored elemental resistance for an element tag
(absent tags read as 0). -/
def elementalResFor (d : NormActor) (el : String) : ℚ :=
  if el = "fire" then d.resFire
  else if el = "frost" then d.resFrost
  else if el = "lightning" then d.resLightning
  else if el = "poison" then d.resPoison
  else 0

structure HitInfo where
  hit : Bool
  roll : ℤ
  chance : ℚ
deriving DecidableEq

/-- Accuracy, `computeHit(attacker, defender, ability, config)`: clamp the hit
chance into `[5, 95]`, roll a d100 (`q` is the rng draw), hit iff
`roll ≤ chance`. -/
def computeHit (attacker defender : NormActor) (ability : Ability)
    (baseHitChance : ℚ) (q : ℚ) : HitInfo :=
  let chance := clamp (baseHitChance + attacker.accuracy
    + (ability.accuracyBonus.getD 0) - defender.evasion) 5 95
  let roll := rollD100 q
  ⟨decide ((roll : ℚ) ≤ chance), roll, chance⟩

/-- The breakdown record returned by `computeDamage` (rounded fields
exactly as the source rounds them). -/
structure DmgInfo where
  dtype : String
  base : ℚ
  variedBase : ℤ
  powerBonus : ℚ
  raw : ℤ
  element : Option String
  elementalReduced : Option ℤ
  total : ℤ
deriving DecidableEq

/-- Damage, `computeDamage(attacker, defender, ability)`: optional symmetric
base variance (`qv ∈ [0, 1)` is the rng draw), physical or magic stat
line, elemental percentage layer, then the `max(1, round(…))` floor. -/
def computeDamage (attacker defender : NormActor) (ability : Ability)
    (qv : ℚ) : DmgInfo :=
  let dtype := if ability.atype = "magic" then "magic" else "physical"
  let base := ability.base
  let variancePct := clamp (ability.variance.getD 0) 0 100
  let powerBonus := ability.powerBonus.getD 0
  let variedBase :=
    if 0 < variancePct then base + (qv * 2 - 1) * (variancePct / 100 * base)
    else base
  let raw :=
    if dtype = "physical"
    then variedBase + attacker.atk + powerBonus - defender.defense
    else variedBase + attacker.magAtk + powerBonus - defender.magRes
  let element := match ability.element with
    | some el => if el = "" then none else some el
    | none => none
  let afterElement := match element with
    | some el => raw * (1 - getPercent (elementalResFor defender el) / 100)
    | none => raw
  ⟨dtype, base, jsRound variedBase, powerBonus, jsRound raw, element,
   element.map (fun _ => jsRound afterElement), max 1 (jsRound afterElement)⟩

/-- The serializable outcome of `resolveAttack`, reduced to its
discriminating payload (`ok`/`reason` on rejection, hit flag, roll,
chance and damage total otherwise). -/
inductive AttackResult where
  | insufficient (resource : String) (required : ℚ)
  | missed (roll : ℤ) (chance : ℚ)
  | landed (damage : ℤ) (roll : ℤ) (chance : ℚ)
deriving DecidableEq

/-- Attack resolution, `resolveAttack({attacker, defender, ability, options})`, with the
default normalizer: mp gate first (no rng consumed), then the hit
roll (`qhit`), then damage (`qvar`). -/
def resolveAttack (attacker defender : RawActor) (ability : Ability)
    (baseHitChance : ℚ) (qhit qvar : ℚ) : AttackResult :=
  let atk := defaultNormalizeActor attacker
  let dfn := defaultNormalizeActor defender
  let mpCost := ability.mpCost.getD 0
  if mpCost ≤ atk.mp then
    let hitInfo := computeHit atk dfn ability baseHitChance qhit
    if hitInfo.hit then
      let dmgInfo := computeDamage atk dfn ability qvar
      .landed dmgInfo.total hitInfo.roll hitInfo.chance
    else .missed hitInfo.roll hitInfo.chance
  else .insufficient "mp" mpCost

/-! ## BattleScene / in-scene battle model -/

/-- The scene's tuning knobs (`K_DEF`, variance band, crit). -/
structure SceneConfig where
  kDef : ℚ
  varianceMin : ℚ
  varianceMax : ℚ
  critChance : ℚ
  critMult : ℚ
deriving DecidableEq

/-- The constructor defaults: `K_DEF = 12`, variance `0.90 – 1.10`,
10% crit chance, 1.5× crit multiplier. -/
def sceneDefaults : SceneConfig := ⟨12, 9 / 10, 11 / 10, 1 / 10, 3 / 2⟩

/-- Effective defense, `defEff = Math.max(0, baseDef - vuln)`, of `_calcDamage`. -/
def effDef (defense vuln : ℚ) : ℚ := max 0 (defense - vuln)

/-- Soft-cap mitigation, `afterMit = Math.max(0, raw * (k / (defEff + k)))`, of
`_calcDamage`. -/
def mitigated (raw defEff k : ℚ) : ℚ := max 0 (raw * (k / (defEff + k)))

/-- Uniform band draw `_rand(min, max) = min + rng * (max - min)`. -/
def jsRand (mn mx q : ℚ) : ℚ := mn + q * (mx - mn)

/-- The diagnostic record of `_calcDamage`. -/
structure CalcDamage where
  mult : ℚ
  afterMit : ℚ
  varFactor : ℚ
  afterVar : ℚ
  didCrit : Bool
  final : ℤ
deriving DecidableEq

/-- Scene damage math, `_calcDamage(raw, target)`: soft-cap mitigation, variance draw
`qv`, crit draw `qc`, then the `max(1, round(…))` floor. -/
def calcDamage (cfg : SceneConfig) (raw defense vuln : ℚ) (qv qc : ℚ) :
    CalcDamage :=
  let dEff := effDef defense vuln
  let mult := cfg.kDef / (dEff + cfg.kDef)
  let afterMit := mitigated raw dEff cfg.kDef
  let varFactor := jsRand cfg.varianceMin cfg.varianceMax qv
  let didCrit := decide (qc < cfg.critChance)
  let afterVar :=
    if didCrit then afterMit * varFactor * cfg.critMult
    else afterMit * varFactor
  ⟨mult, afterMit, varFactor, afterVar, didCrit, max 1 (jsRound afterVar)⟩

/-- Damage application, `_applyDamage(target, amount)`, on the `(shield, hp)` state: a
positive shield absorbs `min(shield, amount)` first; a positive
remainder is subtracted from hp with a 0 floor. -/
def applyDamage (shield hp amount : ℚ) : ℚ × ℚ :=
  let absorbed := if 0 < shield then min shield amount else 0
  let shield1 := shield - absorbed
  let amount1 := amount - absorbed
  let hp1 := if 0 < amount1 then max 0 (hp - amount1) else hp
  (shield1, hp1)

/-! ## Enemy decision policy (`_enemyTurn` of BattleScene.js) -/

/-- One declarative effect of an enemy catalog skill (only the fields
the modelled paths read). -/
structure EnemyFx where
  kind : String
  rollMin : Option ℚ
  rollMax : Option ℚ
  scalingAtk : Option ℚ
  scalingMag : Option ℚ
deriving DecidableEq

/-- An entry of the enemy catalog's `skills` map. -/
structure EnemySkillDefn where
  name : Option String
  stype : Option String
  target : Option String
  cooldown : Option ℚ
  effects : List EnemyFx
deriving DecidableEq

/-- The `aiHints` object: `Array.isArray` checks make absent lists `none`. -/
structure AiHints where
  openers : Option (List String)
  priority : Option (List String)
deriving DecidableEq

/-- The skill object built by `_mkEnemySkill(id, def)`. -/
structure EnemySkill where
  id : String
  name : String
  stype : String
  target : String
  effects : List EnemyFx
deriving DecidableEq

def mkEnemySkill (id : String) (d : Option EnemySkillDefn) : EnemySkill :=
  ⟨id,
   orTruthy (d.bind EnemySkillDefn.name) id,
   orTruthy (d.bind EnemySkillDefn.stype) "attack",
   orTruthy (d.bind EnemySkillDefn.target) "enemy",
   (d.map EnemySkillDefn.effects).getD []⟩

/-- Cooldown read `e._cds[id] || 0`. -/
def cdsGet (cds : List (String × ℚ)) (id : String) : ℚ :=
  (alookup cds id).getD 0

/-- The tick at the top of `_enemyTurn`:
`e._cds[k] = Math.max(0, (e._cds[k] || 0) - 1)` for every key. -/
def tickCooldowns (cds : List (String × ℚ)) : List (String × ℚ) :=
  cds.map (fun p => (p.1, max 0 (p.2 - 1)))

/-- Usability, `isUsable(id)`: the skill must exist in the catalog and its
remaining cooldown must be `≤ 0`. -/
def isUsable (skills : List (String × EnemySkillDefn))
    (cds : List (String × ℚ)) (id : String) : Bool :=
  match alookup skills id with
  | none => false
  | some _ => decide (cdsGet cds id ≤ 0)

/-- List scan, `list.find(isUsable)`, followed by the truthiness test
`if (first) …` (an empty-string id is falsy and falls through). -/
def selectFrom (skills : List (String × EnemySkillDefn))
    (cds : List (String × ℚ)) (ids : List String) :
    Option (String × EnemySkillDefn) :=
  match ids.find? (isUsable skills cds) with
  | some id =>
    if id = "" then none
    else (alookup skills id).map (fun d => (id, d))
  | none => none

/-- The selection cascade of `_enemyTurn`: first-turn openers, then
the priority list, then any declared attack-type skill in declaration
order.  `none` means the generic fallback swing is synthesized.  The
cascade is a pure function of the catalog and cooldown state — it
consumes no rng draw. -/
def selectEnemySkill (turn : ℤ) (skills : List (String × EnemySkillDefn))
    (hints : AiHints) (cds : List (String × ℚ)) :
    Option (String × EnemySkillDefn) :=
  let fromOpeners :=
    if turn = 1 then hints.openers.bind (selectFrom skills cds) else none
  let fromPriority :=
    match fromOpeners with
    | some s => some s
    | none => hints.priority.bind (selectFrom skills cds)
  match fromPriority with
  | some s => some s
  | none =>
    skills.find? (fun p =>
      decide (p.2.stype = some "attack") && isUsable skills cds p.1)

/-- The synthesized fallback swing of BattleScene's `_enemyTurn`. -/
def fallbackEnemySkill : EnemySkill :=
  ⟨"enemy_attack", "Enemy Attack", "attack", "enemy",
   [⟨"damage_roll", some 1, some 3, some 1, none⟩]⟩

/-- One `_enemyTurn` pass restricted to its selection / cooldown
bookkeeping: tick every counter, run the cascade (building the skill
with `_mkEnemySkill` or synthesizing the fallback), and — after the
skill resolves — start its cooldown when the catalog declares one.
The attack resolution between selection and cooldown start touches
hp only, never the cooldown map. -/
def enemyTurnStep (turn : ℤ) (skills : List (String × EnemySkillDefn))
    (hints : AiHints) (cds : List (String × ℚ)) :
    EnemySkill × List (String × ℚ) :=
  let cds1 := tickCooldowns cds
  let chosen :=
    match selectEnemySkill turn skills hints cds1 with
    | some s => mkEnemySkill s.1 (some s.2)
    | none => fallbackEnemySkill
  let cds2 :=
    match alookup skills chosen.id with
    | some rawDef =>
      match rawDef.cooldown with
      | some c => aset cds1 chosen.id c
      | none => cds1
    | none => cds1
  (chosen, cds2)

/-! ## Invariants and predicates used by the properties -/

/-- The pool invariant of the spec: `0 ≤ current ≤ max` (with a
well-formed, non-negative maximum). -/
def PoolInv (p : Pool) : Prop := 0 ≤ p.max ∧ 0 ≤ p.current ∧ p.current ≤ p.max

instance (p : Pool) : Decidable (PoolInv p) := by
  unfold PoolInv
  infer_instance

/-- Every pool of the combatant satisfies the pool invariant. -/
def ResourcesInv (pl : Player) : Prop := ∀ kp ∈ pl.resources, PoolInv kp.2

instance (pl : Player) : Decidable (ResourcesInv pl) :=
  List.decidableBAll _ _

/-- The per-entry failure test of `validateResourceCost`: no pool for
the key, or not enough in it. -/
def entryMissing (pl : Player) (e : String × ℚ) : Bool :=
  match lookupRes pl e.1 with
  | none => true
  | some pool => decide (pool.current < e.2)

/-- Whether a `resolveAttack` outcome is the `INSUFFICIENT_RESOURCE`
rejection. -/
def isInsufficientRes (r : AttackResult) : Bool :=
  match r with
  | .insufficient _ _ => true
  | _ => false

/-! ## Spec-side comparison definitions (claim C9) -/

/-- The max-resolution order exactly as claim C9 states it: explicit
declared max, else the value of the named tied stat on the combatant,
else the domain default for the resource kind, else 0. -/
def claimedResourceMaxOrder (key : String) (rdef : ResDefn) (pl : Player) : ℚ :=
  let tied := rdef.maxFromStat.bind (fun s => if s = "" then none else getField pl s)
  clampMin ((rdef.max.or tied).getD (computeDefaultMax key pl)) 0

/-- The amended resolution order: explicit declared max, else the
named tied stat, else the combatant's `<key>Max` field, else (for
mana) the legacy `mpMax`/`mp` fields, else the domain default, else
0. -/
def amendedResourceMaxOrder (key : String) (rdef : ResDefn) (pl : Player) : ℚ :=
  let tied := rdef.maxFromStat.bind (fun s => if s = "" then none else getField pl s)
  let fromPlayerKey := getField pl (key ++ "Max")
  let legacyMana :=
    if key = "mana" then (getField pl "mpMax").or (getField pl "mp") else none
  clampMin
    ((((rdef.max.or tied).or fromPlayerKey).or legacyMana).getD
      (computeDefaultMax key pl)) 0

/-! ## Helper lemmas: characters, trimming, key normalization -/

theorem charToNatOfNat (n : Nat) (h1 : n ≤ 122) : (Char.ofNat n).toNat = n := by
  have hv : n.isValidChar := Or.inl (by omega)
  simp [Char.ofNat, hv, Char.ofNatAux, Char.toNat, UInt32.toNat]

theorem lowerChar_eq_self {c : Char} (h : ¬(65 ≤ c.toNat ∧ c.toNat ≤ 90)) :
    lowerChar c = c := by
  show (if 65 ≤ c.toNat ∧ c.toNat ≤ 90 then Char.ofNat (c.toNat + 32) else c) = c
  exact if_neg h

theorem lowerChar_eq_of {c : Char} (h : 65 ≤ c.toNat ∧ c.toNat ≤ 90) :
    lowerChar c = Char.ofNat (c.toNat + 32) := by
  show (if 65 ≤ c.toNat ∧ c.toNat ≤ 90 then Char.ofNat (c.toNat + 32) else c) = _
  exact if_pos h

theorem lowerChar_toNat_of {c : Char} (h : 65 ≤ c.toNat ∧ c.toNat ≤ 90) :
    (lowerChar c).toNat = c.toNat + 32 := by
  rw [lowerChar_eq_of h]
  exact charToNatOfNat _ (by omega)

theorem lowerChar_idem (c : Char) : lowerChar (lowerChar c) = lowerChar c := by
  by_cases h : 65 ≤ c.toNat ∧ c.toNat ≤ 90
  · have ht := lowerChar_toNat_of h
    apply lowerChar_eq_self
    rw [ht]
    omega
  · rw [lowerChar_eq_self h, lowerChar_eq_self h]

theorem isWs_lowerChar (c : Char) : isWsChar (lowerChar c) = isWsChar c := by
  by_cases h : 65 ≤ c.toNat ∧ c.toNat ≤ 90
  · have ht := lowerChar_toNat_of h
    unfold isWsChar
    rw [ht]
    have hL : (decide (c.toNat + 32 = 32) || decide (c.toNat + 32 = 9) ||
        decide (c.toNat + 32 = 10) || decide (c.toNat + 32 = 13)) = false := by
      simp
      omega
    have hR : (decide (c.toNat = 32) || decide (c.toNat = 9) ||
        decide (c.toNat = 10) || decide (c.toNat = 13)) = false := by
      simp
      omega
    rw [hL, hR]
  · rw [lowerChar_eq_self h]

theorem dropWhile_idem (p : Char → Bool) (l : List Char) :
    (l.dropWhile p).dropWhile p = l.dropWhile p := by
  induction l with
  | nil => rfl
  | cons a t ih =>
    by_cases h : p a
    · simp [List.dropWhile, h, ih]
    · simp [List.dropWhile, h]

theorem dropWhile_map (p : Char → Bool) (f : Char → Char) (l : List Char)
    (hp : ∀ c, p (f c) = p c) :
    (l.map f).dropWhile p = (l.dropWhile p).map f := by
  induction l with
  | nil => rfl
  | cons a t ih =>
    by_cases h : p a
    · simp [List.dropWhile, h, hp, ih]
    · simp [List.dropWhile, h, hp]

theorem dropWhile_isSuffix (p : Char → Bool) (l : List Char) : l.dropWhile p <:+ l := by
  induction l with
  | nil => exact List.suffix_refl _
  | cons a t ih =>
    by_cases h : p a
    · simp only [List.dropWhile, h]
      exact ih.trans (List.suffix_cons a t)
    · simp only [List.dropWhile, h]
      exact List.suffix_refl _

theorem dropWhile_fixed_of_front (p : Char → Bool) {m m' : List Char}
    (hm : m.dropWhile p = m) (hp : m' <+: m) : m'.dropWhile p = m' := by
  cases m' with
  | nil => rfl
  | cons a t =>
    obtain ⟨rest, hrest⟩ := hp
    have ha : p a = false := by
      by_contra hc
      have ha' : p a = true := by simpa using hc
      rw [← hrest] at hm
      simp only [List.dropWhile, ha'] at hm
      have hs := (dropWhile_isSuffix p (t ++ rest)).length_le
      rw [show t ++ rest = t.append rest from rfl, hm] at hs
      simp at hs
    simp [List.dropWhile, ha]

theorem trimR_front (l : List Char) : trimR l <+: l := by
  have h := dropWhile_isSuffix isWsChar l.reverse
  rw [show l.reverse.dropWhile isWsChar = (trimR l).reverse by
    unfold trimR; rw [List.reverse_reverse]] at h
  exact List.reverse_suffix.mp h

theorem trimL_idem (l : List Char) : trimL (trimL l) = trimL l :=
  dropWhile_idem _ _

theorem trimR_idem (l : List Char) : trimR (trimR l) = trimR l := by
  unfold trimR
  rw [List.reverse_reverse, dropWhile_idem]

theorem trim_idem (l : List Char) : trimChars (trimChars l) = trimChars l := by
  unfold trimChars
  have h1 : trimL (trimR (trimL l)) = trimR (trimL l) := by
    apply dropWhile_fixed_of_front isWsChar (m := trimL l)
    · exact trimL_idem l
    · exact trimR_front _
  rw [h1, trimR_idem]

theorem trimL_map (l : List Char) : trimL (l.map lowerChar) = (trimL l).map lowerChar :=
  dropWhile_map _ _ _ isWs_lowerChar

theorem trimR_map (l : List Char) : trimR (l.map lowerChar) = (trimR l).map lowerChar := by
  unfold trimR
  rw [← List.map_reverse, dropWhile_map _ _ _ isWs_lowerChar, List.map_reverse]

theorem trim_map (l : List Char) :
    trimChars (l.map lowerChar) = (trimChars l).map lowerChar := by
  unfold trimChars
  rw [trimL_map, trimR_map]

theorem alookup_mem {A : Type} {l : List (String × A)} {k : String} {v : A}
    (h : alookup l k = some v) : v ∈ l.map Prod.snd := by
  induction l with
  | nil => simp [alookup] at h
  | cons p rest ih =>
    obtain ⟨q, w⟩ := p
    rw [alookup] at h
    by_cases hk : q = k
    · rw [if_pos hk] at h
      injection h with h
      subst h
      simp
    · rw [if_neg hk] at h
      exact List.mem_cons_of_mem _ (ih h)

theorem aliasApply_cases (x : String) :
    aliasApply x = x ∨
      aliasApply x ∈ ["hp", "mana", "stamina", "energy", "focus", "faith", "ki", "rage"] := by
  unfold aliasApply
  cases h : alookup RESOURCE_ALIASES x with
  | none => left; rfl
  | some v =>
    right
    have hm := alookup_mem h
    simp only [RESOURCE_ALIASES, List.map_cons, List.map_nil, List.mem_cons,
      List.not_mem_nil, or_false] at hm
    simp only [Option.getD_some]
    rcases hm with h | h | h | h | h | h | h | h | h | h | h | h <;> subst h <;> decide

theorem normKey_canonical_fixed :
    ∀ k ∈ ["hp", "mana", "stamina", "energy", "focus", "faith", "ki", "rage"],
      normalizeResourceKey k = some k := by
  decide

/-- Key normalization is idempotent: canonical keys normalize to
themselves.  (This is what makes `applyResourceCost`'s re-normalization
inside `adjustResource` hit the same pool.) -/
theorem normKey_idem {s k : String} (h : normalizeResourceKey s = some k) :
    normalizeResourceKey k = some k := by
  unfold normalizeResourceKey at h
  by_cases ht : trimChars s.data = []
  · simp [ht] at h
  · simp only [ht, if_neg, if_false] at h
    have hk : k = aliasApply (String.mk ((trimChars s.data).map lowerChar)) := by
      simpa using h.symm
    rcases aliasApply_cases (String.mk ((trimChars s.data).map lowerChar)) with hca | hca
    · rw [hk, hca]
      set l := (trimChars s.data).map lowerChar with hl
      have hdata : (String.mk l).data = l := rfl
      have htriml : trimChars l = l := by
        rw [hl, trim_map, trim_idem]
      have hmapl : l.map lowerChar = l := by
        rw [hl, List.map_map]
        exact List.map_congr_left (fun c _ => lowerChar_idem c)
      have hlne : l ≠ [] := by
        rw [hl]
        simp only [ne_eq, List.map_eq_nil_iff]
        exact ht
      unfold normalizeResourceKey
      simp only [hdata, htriml, hlne, if_neg, if_false, hmapl]
      rw [hca]
    · rw [hk]
      exact normKey_canonical_fixed _ hca

/-! ## Association-list lemmas -/

theorem alookup_aupdate_self {A : Type} {l : List (String × A)} {k : String} {a : A}
    (h : alookup l k = some a) (b : A) : alookup (aupdate l k b) k = some b := by
  induction l with
  | nil => simp [alookup] at h
  | cons p rest ih =>
    obtain ⟨q, w⟩ := p
    rw [alookup] at h
    by_cases hk : q = k
    · rw [aupdate, if_pos hk, alookup, if_pos hk]
    · rw [if_neg hk] at h
      rw [aupdate, if_neg hk, alookup, if_neg hk]
      exact ih h

theorem alookup_aupdate_other {A : Type} (l : List (String × A)) (k : String) (b : A)
    {k' : String} (h : k' ≠ k) : alookup (aupdate l k b) k' = alookup l k' := by
  induction l with
  | nil => rfl
  | cons p rest ih =>
    obtain ⟨q, w⟩ := p
    by_cases hk : q = k
    · rw [aupdate, if_pos hk, alookup, alookup, if_neg, if_neg]
      · exact fun hq => h (hq ▸ hk)
      · exact fun hq => h (hq ▸ hk)
    · rw [aupdate, if_neg hk, alookup, alookup]
      by_cases hq : q = k'
      · rw [if_pos hq, if_pos hq]
      · rw [if_neg hq, if_neg hq]
        exact ih

theorem alookup_aset_self {A : Type} (l : List (String × A)) (k : String) (v : A) :
    alookup (aset l k v) k = some v := by
  induction l with
  | nil => simp [aset, alookup]
  | cons p rest ih =>
    obtain ⟨q, w⟩ := p
    by_cases hk : q = k
    · rw [aset, if_pos hk, alookup, if_pos hk]
    · rw [aset, if_neg hk, alookup, if_neg hk]
      exact ih

theorem alookup_map_value {A B : Type} (l : List (String × A)) (f : A → B) (k : String) :
    alookup (l.map (fun p => (p.1, f p.2))) k = (alookup l k).map f := by
  induction l with
  | nil => rfl
  | cons p rest ih =>
    obtain ⟨q, w⟩ := p
    by_cases hk : q = k
    · simp [alookup, hk]
    · simp only [List.map_cons, alookup, hk, if_neg, if_false]
      exact ih

theorem aupdate_forall {A : Type} {P : A → Prop} {l : List (String × A)}
    (h : ∀ kp ∈ l, P kp.2) {k : String} {v : A} (hv : P v) :
    ∀ kp ∈ aupdate l k v, P kp.2 := by
  induction l with
  | nil => intro kp hkp; simp [aupdate] at hkp
  | cons p rest ih =>
    obtain ⟨q, w⟩ := p
    intro kp hkp
    by_cases hk : q = k
    · rw [aupdate, if_pos hk] at hkp
      rcases List.mem_cons.mp hkp with h1 | h1
      · rw [h1]; exact hv
      · exact h kp (List.mem_cons_of_mem _ h1)
    · rw [aupdate, if_neg hk] at hkp
      rcases List.mem_cons.mp hkp with h1 | h1
      · rw [h1]; exact h (q, w) (List.mem_cons_self _ _)
      · exact ih (fun x hx => h x (List.mem_cons_of_mem _ hx)) kp h1

/-! ## Resource invariant preservation (claim C1 machinery) -/

theorem poolInv_of_alookup {pl : Player} (h : ResourcesInv pl) {k : String} {p : Pool}
    (hl : lookupRes pl k = some p) : PoolInv p := by
  have hm := alookup_mem hl
  obtain ⟨kp, hkp, hkp2⟩ := List.mem_map.mp hm
  rw [← hkp2]
  exact h kp hkp

theorem adjustResource_preserves {pl : Player} (h : ResourcesInv pl)
    (key : String) (delta : ℚ) : ResourcesInv (adjustResource pl key delta).1 := by
  unfold adjustResource
  cases hn : normalizeResourceKey key with
  | none => exact h
  | some canonical =>
    dsimp only
    cases hl : lookupRes pl canonical with
    | none => exact h
    | some pool =>
      dsimp only
      have hpool := poolInv_of_alookup h hl
      intro kp hkp
      refine aupdate_forall h ?_ kp hkp
      refine ⟨hpool.1, le_max_left _ _, ?_⟩
      show max 0 (min (clampMin pool.max 0) _) ≤ pool.max
      rw [show clampMin pool.max 0 = pool.max from max_eq_right hpool.1]
      exact max_le hpool.1 (min_le_left _ _)

theorem payEntries_preserves (entries : List (String × ℚ)) :
    ∀ pl : Player, ResourcesInv pl → ResourcesInv (payEntries pl entries).1 := by
  induction entries with
  | nil => intro pl h; exact h
  | cons e rest ih =>
    intro pl h
    exact ih _ (adjustResource_preserves h e.1 (-e.2))

theorem gainEntries_preserves (entries : List (String × ℚ)) :
    ∀ pl : Player, ResourcesInv pl → ResourcesInv (gainEntries pl entries).1 := by
  induction entries with
  | nil => intro pl h; exact h
  | cons e rest ih =>
    intro pl h
    exact ih _ (adjustResource_preserves h e.1 e.2)

theorem regenFold_preserves (l : List (String × ℚ)) :
    ∀ pl : Player, ResourcesInv pl →
      ResourcesInv (l.foldl
        (fun p kr => if kr.2 ≠ 0 then (adjustResource p kr.1 kr.2).1 else p) pl) := by
  induction l with
  | nil => intro pl h; exact h
  | cons e rest ih =>
    intro pl h
    by_cases he : e.2 ≠ 0
    · simp only [List.foldl_cons, if_pos he]
      exact ih _ (adjustResource_preserves h e.1 e.2)
    · simp only [List.foldl_cons, if_neg he]
      exact ih _ h

/-- C1.  Every mutation of a resource pool — cost deduction
(`applyResourceCost` / `spend`), restoration (`applyResourceGain` /
`adjustResource`) and per-round regeneration (`regenTurn`) — keeps
every pool inside `0 ≤ current ≤ max`: the invariant is preserved by
all five operations (the mutated pool is clamped back into range, and
untouched pools are unchanged). -/
theorem claim_C1_resource_clamping (pl : Player) (h : ResourcesInv pl) :
    (∀ key delta, ResourcesInv (adjustResource pl key delta).1) ∧
    (∀ key amount, ResourcesInv (spend pl key amount).1) ∧
    (∀ m fk, ResourcesInv (applyResourceCost pl m fk).player) ∧
    (∀ m fk, ResourcesInv (applyResourceGain pl m fk).player) ∧
    ResourcesInv (regenTurn pl) := by
  refine ⟨fun key delta => adjustResource_preserves h key delta,
    fun key amount => ?_, fun m fk => ?_, fun m fk => ?_, ?_⟩
  · unfold spend
    cases normalizeResourceKey key with
    | none => exact h
    | some canonical =>
      by_cases hc : canSpend pl canonical amount
      · simp only [hc, if_pos, if_true]
        exact adjustResource_preserves h canonical _
      · simp only [hc, if_neg, if_false]
        exact h
  · unfold applyResourceCost
    by_cases hok : (validateResourceCost pl m fk).ok
    · simp only [hok, if_pos, if_true]
      exact payEntries_preserves _ pl h
    · simp only [hok, if_neg, if_false]
      exact h
  · exact gainEntries_preserves _ pl h
  · exact regenFold_preserves _ pl h

/-- Witness for C1 at a concrete combatant: a mana pool `4 / 10` with
regen 2 and a stamina pool `3 / 100`; the invariant holds before and
after a round of regeneration. -/
theorem claim_C1_resource_clamping_witness :
    ResourcesInv
        (Player.mk [("mp", 4), ("mpMax", 10)]
          [("mana", Pool.mk "Mana" 4 10 2 none),
           ("stamina", Pool.mk "Stamina" 3 100 0 none)]) ∧
      ResourcesInv (regenTurn
        (Player.mk [("mp", 4), ("mpMax", 10)]
          [("mana", Pool.mk "Mana" 4 10 2 none),
           ("stamina", Pool.mk "Stamina" 3 100 0 none)])) :=
  ⟨by decide,
   (claim_C1_resource_clamping _ (by decide)).2.2.2.2⟩

/-! ## Damage floor (claim C2) -/

/-- C2.  In both damage pipelines a successful hit's final damage is
`max(1, round(value))` — `value` being the post-elemental-layer value
in `computeDamage` (recorded rounded in `elementalReduced` / `raw`)
and the post-variance/crit value in the scene's `_calcDamage`
(recorded in `afterVar`) — and is therefore at least 1 for every
combination of stats, defenses, resistances and random draws. -/
theorem claim_C2_damage_floor :
    (∀ (attacker defender : NormActor) (ability : Ability) (qv : ℚ),
      1 ≤ (computeDamage attacker defender ability qv).total ∧
      (computeDamage attacker defender ability qv).total =
        max 1 ((computeDamage attacker defender ability qv).elementalReduced.getD
          (computeDamage attacker defender ability qv).raw)) ∧
    (∀ (cfg : SceneConfig) (raw defense vuln qv qc : ℚ),
      1 ≤ (calcDamage cfg raw defense vuln qv qc).final ∧
      (calcDamage cfg raw defense vuln qv qc).final =
        max 1 (jsRound (calcDamage cfg raw defense vuln qv qc).afterVar)) := by
  constructor
  · intro attacker defender ability qv
    refine ⟨le_max_left _ _, ?_⟩
    unfold computeDamage
    dsimp only
    cases ability.element with
    | none => rfl
    | some el =>
      by_cases he : el = ""
      · simp only [he, if_pos, if_true]
        rfl
      · simp only [he, if_neg, if_false]
        rfl
  · intro cfg raw defense vuln qv qc
    exact ⟨le_max_left _ _, rfl⟩

/-! ## Mitigation monotonicity (claim C4) -/

theorem mitigated_eq {raw d k : ℚ} (hraw : 0 ≤ raw) (hd : 0 ≤ d) (hk : 0 < k) :
    mitigated raw d k = raw * k / (d + k) := by
  unfold mitigated
  rw [max_eq_right, mul_div_assoc]
  positivity

/-- C4.  With the in-scene mitigation model (`multiplier =
K / (effectiveDefense + K)`, `effectiveDefense = max(0, def − vuln)`),
for fixed positive raw damage and positive `K` the post-mitigation
damage strictly decreases as effective defense increases, stays
strictly positive at every defense value, and tends to 0: below any
`ε > 0` from some defense threshold on. -/
theorem claim_C4_mitigation_monotonic (raw k d1 d2 : ℚ)
    (hraw : 0 < raw) (hk : 0 < k) (hd1 : 0 ≤ d1) (hlt : d1 < d2) :
    mitigated raw d2 k < mitigated raw d1 k ∧
    (∀ d : ℚ, 0 ≤ d → 0 < mitigated raw d k) ∧
    (∀ eps : ℚ, 0 < eps → ∃ D : ℚ, 0 ≤ D ∧
      ∀ d : ℚ, D ≤ d → mitigated raw d k < eps) := by
  have hd2 : 0 ≤ d2 := le_trans hd1 (le_of_lt hlt)
  refine ⟨?_, ?_, ?_⟩
  · rw [mitigated_eq (le_of_lt hraw) hd1 hk, mitigated_eq (le_of_lt hraw) hd2 hk]
    apply div_lt_div_of_pos_left
    · positivity
    · positivity
    · linarith
  · intro d hd
    rw [mitigated_eq (le_of_lt hraw) hd hk]
    positivity
  · intro eps heps
    refine ⟨max 0 (raw * k / eps), le_max_left _ _, ?_⟩
    intro d hDd
    have hd : 0 ≤ d := le_trans (le_max_left _ _) hDd
    have hdk : 0 < d + k := by positivity
    rw [mitigated_eq (le_of_lt hraw) hd hk, div_lt_iff hdk]
    have h1 : raw * k / eps ≤ d := le_trans (le_max_right _ _) hDd
    have h2 : raw * k ≤ eps * d := by
      rw [div_le_iff heps] at h1
      linarith
    nlinarith

/-- Witness for C4 at `raw = 20`, `K = 12` (the scene default),
effective defenses `0 < 6`. -/
theorem claim_C4_mitigation_monotonic_witness :
    mitigated 20 6 12 < mitigated 20 0 12 ∧ 0 < mitigated 20 6 12 := by
  have h := claim_C4_mitigation_monotonic 20 12 0 6 (by norm_num) (by norm_num)
    (by norm_num) (by norm_num)
  exact ⟨h.1, h.2.1 6 (by norm_num)⟩

/-! ## Hit-chance bounds (claim C5) -/

/-- C5.  `computeHit` clamps the chance
`baseHitChance + accuracy + accuracyBonus − evasion` into `[5, 95]`
for all inputs, draws a uniform integer roll in `[1, 100]`, and hits
exactly when `roll ≤ chance`. -/
theorem claim_C5_hit_chance_bounds (attacker defender : NormActor) (ability : Ability)
    (baseHitChance q : ℚ) (hq0 : 0 ≤ q) (hq1 : q < 1) :
    (computeHit attacker defender ability baseHitChance q).chance =
      clamp (baseHitChance + attacker.accuracy + ability.accuracyBonus.getD 0
        - defender.evasion) 5 95 ∧
    5 ≤ (computeHit attacker defender ability baseHitChance q).chance ∧
    (computeHit attacker defender ability baseHitChance q).chance ≤ 95 ∧
    1 ≤ (computeHit attacker defender ability baseHitChance q).roll ∧
    (computeHit attacker defender ability baseHitChance q).roll ≤ 100 ∧
    ((computeHit attacker defender ability baseHitChance q).hit = true ↔
      ((computeHit attacker defender ability baseHitChance q).roll : ℚ) ≤
        (computeHit attacker defender ability baseHitChance q).chance) := by
  refine ⟨rfl, le_max_left _ _, ?_, ?_, ?_, ?_⟩
  · exact max_le (by norm_num) (min_le_left _ _)
  · show 1 ≤ rollD100 q
    unfold rollD100
    have : (0 : ℤ) ≤ ⌊q * 100⌋ := Int.floor_nonneg.mpr (by positivity)
    omega
  · show rollD100 q ≤ 100
    unfold rollD100
    have : ⌊q * 100⌋ < 100 := by
      rw [Int.floor_lt]
      push_cast
      nlinarith
    omega
  · exact decide_eq_true_iff

/-- Witness for C5 at extreme inputs: accuracy 1000 against evasion 0
still clamps to 95, and the roll from draw `q = 0` is 1 (a hit). -/
theorem claim_C5_hit_chance_bounds_witness :
    (computeHit (defaultNormalizeActor (RawActor.mk none [("ACC", 1000)] [] []))
        (defaultNormalizeActor (RawActor.mk none [] [] []))
        (Ability.mk "Slash" "physical" 3 none none none none none) 70 0).chance = 95 ∧
    (computeHit (defaultNormalizeActor (RawActor.mk none [("ACC", 1000)] [] []))
        (defaultNormalizeActor (RawActor.mk none [] [] []))
        (Ability.mk "Slash" "physical" 3 none none none none none) 70 0).roll = 1 := by
  have h := claim_C5_hit_chance_bounds
    (defaultNormalizeActor (RawActor.mk none [("ACC", 1000)] [] []))
    (defaultNormalizeActor (RawActor.mk none [] [] []))
    (Ability.mk "Slash" "physical" 3 none none none none none) 70 0
    (by norm_num) (by norm_num)
  constructor
  · rw [h.1]
    norm_num [defaultNormalizeActor, getNum2, alookup, clamp, max_def, min_def]
  · show rollD100 0 = 1
    norm_num [rollD100]

/-! ## Shield absorption (claim C6) -/

/-- C6.  `_applyDamage` against a positive shield: the shield absorbs
`min(shield, damage)` first, and only the remainder — when positive —
is subtracted from hp with a 0 floor. -/
theorem claim_C6_shield_absorption (shield hp dmg : ℚ)
    (hs : 0 < shield) (hd : 0 ≤ dmg) :
    applyDamage shield hp dmg =
      (shield - min shield dmg,
       if shield < dmg then max 0 (hp - (dmg - shield)) else hp) := by
  unfold applyDamage
  dsimp only
  rw [if_pos hs]
  by_cases hc : shield < dmg
  · have hmin : min shield dmg = shield := min_eq_left (le_of_lt hc)
    rw [hmin, if_pos hc, if_pos (by linarith)]
  · have hdm : dmg ≤ shield := le_of_not_lt hc
    have hmin : min shield dmg = dmg := min_eq_right hdm
    rw [hmin, if_neg hc, if_neg (by linarith)]

/-- Witness for C6 at the spec's scenario: shield 5, hp 10, incoming
damage 8 → shield 0, hp reduced by exactly 3. -/
theorem claim_C6_shield_absorption_witness :
    applyDamage 5 10 8 = (0, 7) := by
  have h := claim_C6_shield_absorption 5 10 8 (by norm_num) (by norm_num)
  rw [h]
  norm_num

/-! ## Enemy decision policy (claims C7, C8) -/

theorem selectFrom_sound {skills : List (String × EnemySkillDefn)}
    {cds : List (String × ℚ)} {ids : List String} {id : String} {d : EnemySkillDefn}
    (h : selectFrom skills cds ids = some (id, d)) :
    isUsable skills cds id = true ∧ alookup skills id = some d := by
  unfold selectFrom at h
  cases hf : ids.find? (isUsable skills cds) with
  | none => rw [hf] at h; exact absurd h (by simp)
  | some j =>
    rw [hf] at h
    simp only at h
    by_cases hj : j = ""
    · rw [if_pos hj] at h
      exact absurd h (by simp)
    · rw [if_neg hj] at h
      cases hl : alookup skills j with
      | none => rw [hl] at h; exact absurd h (by simp)
      | some d' =>
        rw [hl] at h
        simp only [Option.map_some'] at h
        injection h with h
        injection h with h1 h2
        subst h1
        subst h2
        exact ⟨List.find?_some hf, hl⟩

theorem selectEnemySkill_usable {turn : ℤ} {skills : List (String × EnemySkillDefn)}
    {hints : AiHints} {cds : List (String × ℚ)} {id : String} {d : EnemySkillDefn}
    (h : selectEnemySkill turn skills hints cds = some (id, d)) :
    isUsable skills cds id = true := by
  unfold selectEnemySkill at h
  cases hfo : (if turn = 1 then hints.openers.bind (selectFrom skills cds) else none) with
  | some s =>
    rw [hfo] at h
    simp only at h
    injection h with h
    subst h
    by_cases ht : turn = 1
    · rw [if_pos ht] at hfo
      cases ho : hints.openers with
      | none => rw [ho] at hfo; exact absurd hfo (by simp)
      | some l =>
        rw [ho] at hfo
        simp only [Option.some_bind] at hfo
        exact (selectFrom_sound hfo).1
    · rw [if_neg ht] at hfo
      exact absurd hfo (by simp)
  | none =>
    rw [hfo] at h
    simp only at h
    cases hp : hints.priority.bind (selectFrom skills cds) with
    | some s =>
      rw [hp] at h
      simp only at h
      injection h with h
      subst h
      cases ho : hints.priority with
      | none => rw [ho] at hp; exact absurd hp (by simp)
      | some l =>
        rw [ho] at hp
        simp only [Option.some_bind] at hp
        exact (selectFrom_sound hp).1
    | none =>
      rw [hp] at h
      simp only at h
      have hfind := List.find?_some h
      rw [Bool.and_eq_true] at hfind
      exact hfind.2

/-- C7.  On the enemy's first turn, when `aiHints` declares an openers
list, the first opener that is usable (a declared skill, cooldown 0)
is the skill selected — the priority list is not even consulted — and
the whole cascade is a pure function of the catalog and cooldown state
(`selectEnemySkill` consumes no random draw). -/
theorem claim_C7_enemy_opener (skills : List (String × EnemySkillDefn))
    (hints : AiHints) (cds0 : List (String × ℚ)) (l : List String)
    (id : String) (d : EnemySkillDefn)
    (hop : hints.openers = some l)
    (hfind : l.find? (isUsable skills (tickCooldowns cds0)) = some id)
    (hid : id ≠ "")
    (hlook : alookup skills id = some d) :
    selectEnemySkill 1 skills hints (tickCooldowns cds0) = some (id, d) ∧
    (enemyTurnStep 1 skills hints cds0).1 = mkEnemySkill id (some d) := by
  have hsel : selectEnemySkill 1 skills hints (tickCooldowns cds0) = some (id, d) := by
    unfold selectEnemySkill
    rw [if_pos rfl, hop]
    simp only [Option.some_bind]
    have hsf : selectFrom skills (tickCooldowns cds0) l = some (id, d) := by
      unfold selectFrom
      rw [hfind]
      simp only
      rw [if_neg hid, hlook]
      rfl
    rw [hsf]
  refine ⟨hsel, ?_⟩
  simp only [enemyTurnStep, hsel]

/-- Witness for C7: `fireball` is the declared opener with cooldown 0;
a usable priority skill `slam` also exists, yet `fireball` is selected
on turn 1. -/
theorem claim_C7_enemy_opener_witness :
    selectEnemySkill 1
        [("slam", EnemySkillDefn.mk (some "Slam") (some "attack") none none []),
         ("fireball", EnemySkillDefn.mk (some "Fireball") (some "attack") none (some 2) [])]
        (AiHints.mk (some ["fireball"]) (some ["slam"]))
        (tickCooldowns []) =
      some ("fireball",
        EnemySkillDefn.mk (some "Fireball") (some "attack") none (some 2) []) :=
  (claim_C7_enemy_opener
    [("slam", EnemySkillDefn.mk (some "Slam") (some "attack") none none []),
     ("fireball", EnemySkillDefn.mk (some "Fireball") (some "attack") none (some 2) [])]
    (AiHints.mk (some ["fireball"]) (some ["slam"]))
    [] ["fireball"] "fireball"
    (EnemySkillDefn.mk (some "Fireball") (some "attack") none (some 2) [])
    rfl (by decide) (by decide) (by decide)).1

theorem alookup_tick (cds : List (String × ℚ)) (id : String) :
    alookup (tickCooldowns cds) id = (alookup cds id).map (fun v => max 0 (v - 1)) := by
  induction cds with
  | nil => rfl
  | cons p rest ih =>
    obtain ⟨q, v⟩ := p
    by_cases hk : q = id
    · simp [tickCooldowns, alookup, hk]
    · simp only [tickCooldowns, List.map_cons, alookup, hk, if_neg, if_false]
      exact ih

/-- C8.  Cooldown discipline of `_enemyTurn`: (a) at the start of the
enemy turn every counter is decremented by 1 with a floor of 0;
(b) the cascade never selects a skill (opener, priority entry, or
attack) whose post-tick counter is above 0; (c) after the chosen
skill resolves, a declared cooldown `c` sets that skill's counter to
`c`. -/
theorem claim_C8_cooldown_discipline (turn : ℤ)
    (skills : List (String × EnemySkillDefn)) (hints : AiHints)
    (cds : List (String × ℚ)) :
    (∀ id, cdsGet (tickCooldowns cds) id = max 0 (cdsGet cds id - 1)) ∧
    (∀ id d, selectEnemySkill turn skills hints (tickCooldowns cds) = some (id, d) →
      cdsGet (tickCooldowns cds) id ≤ 0) ∧
    (∀ id d c, selectEnemySkill turn skills hints (tickCooldowns cds) = some (id, d) →
      (alookup skills id).bind EnemySkillDefn.cooldown = some c →
      cdsGet (enemyTurnStep turn skills hints cds).2 id = c) := by
  refine ⟨?_, ?_, ?_⟩
  · intro id
    unfold cdsGet
    rw [alookup_tick]
    cases alookup cds id with
    | none => simp
    | some v => simp
  · intro id d hsel
    have hu := selectEnemySkill_usable hsel
    unfold isUsable at hu
    cases hl : alookup skills id with
    | none => rw [hl] at hu; exact absurd hu (by simp)
    | some d' =>
      rw [hl] at hu
      exact of_decide_eq_true hu
  · intro id d c hsel hcool
    obtain ⟨d', hd', hc'⟩ : ∃ d', alookup skills id = some d' ∧ d'.cooldown = some c := by
      cases hl : alookup skills id with
      | none => rw [hl] at hcool; exact absurd hcool (by simp)
      | some d' =>
        rw [hl] at hcool
        exact ⟨d', rfl, hcool⟩
    simp only [enemyTurnStep, hsel]
    rw [show (mkEnemySkill id (some d)).id = id from rfl, hd']
    dsimp only
    rw [hc']
    dsimp only
    unfold cdsGet
    rw [alookup_aset_self]
    rfl

/-- Witness for C8: `fireball` declares cooldown 2 and has no pending
counter; the opener cascade selects it and its counter is set to 2
after resolution, while the tick law holds for its key. -/
theorem claim_C8_cooldown_discipline_witness :
    cdsGet (tickCooldowns ([] : List (String × ℚ))) "fireball" =
      max 0 (cdsGet ([] : List (String × ℚ)) "fireball" - 1) ∧
    cdsGet (enemyTurnStep 1
        [("fireball", EnemySkillDefn.mk (some "Fireball") (some "attack") none (some 2) [])]
        (AiHints.mk (some ["fireball"]) none)
        []).2 "fireball" = 2 := by
  have h := claim_C8_cooldown_discipline 1
    [("fireball", EnemySkillDefn.mk (some "Fireball") (some "attack") none (some 2) [])]
    (AiHints.mk (some ["fireball"]) none)
    []
  refine ⟨h.1 "fireball", ?_⟩
  refine h.2.2 "fireball"
    (EnemySkillDefn.mk (some "Fireball") (some "attack") none (some 2) []) 2
    (by decide) (by decide)

/-! ## All-or-nothing multi-resource deduction (claim C3) -/

theorem addEntry_keys {out : List (String × ℚ)} {k : String} {a : ℚ} :
    ∀ x ∈ (addEntry out k a).map Prod.fst, x ∈ out.map Prod.fst ∨ x = k := by
  induction out with
  | nil => intro x hx; simp [addEntry] at hx; right; exact hx
  | cons p rest ih =>
    obtain ⟨q, v⟩ := p
    intro x hx
    by_cases hk : q = k
    · rw [addEntry, if_pos hk] at hx
      simp only [List.map_cons, List.mem_cons] at hx ⊢
      rcases hx with hx | hx
      · left; left; exact hx
      · left; right; exact hx
    · rw [addEntry, if_neg hk] at hx
      simp only [List.map_cons, List.mem_cons] at hx ⊢
      rcases hx with hx | hx
      · left; left; exact hx
      · rcases ih x hx with h1 | h1
        · left; right; exact h1
        · right; exact h1

theorem addEntry_sound {out : List (String × ℚ)} {k : String} {a : ℚ}
    (hnd : (out.map Prod.fst).Nodup)
    (hall : ∀ e ∈ out, normalizeResourceKey e.1 = some e.1 ∧ 0 < e.2)
    (hk : normalizeResourceKey k = some k) (ha : 0 < a) :
    ((addEntry out k a).map Prod.fst).Nodup ∧
      ∀ e ∈ addEntry out k a, normalizeResourceKey e.1 = some e.1 ∧ 0 < e.2 := by
  induction out with
  | nil =>
    refine ⟨by simp [addEntry], ?_⟩
    intro e he
    simp only [addEntry, List.mem_singleton] at he
    rw [he]
    exact ⟨hk, ha⟩
  | cons p rest ih =>
    obtain ⟨q, v⟩ := p
    have hqv := hall (q, v) (List.mem_cons_self _ _)
    have hrest : ∀ e ∈ rest, normalizeResourceKey e.1 = some e.1 ∧ 0 < e.2 :=
      fun e he => hall e (List.mem_cons_of_mem _ he)
    rw [List.map_cons, List.nodup_cons] at hnd
    by_cases hqk : q = k
    · rw [addEntry, if_pos hqk]
      refine ⟨?_, ?_⟩
      · rw [List.map_cons, List.nodup_cons]
        exact hnd
      · intro e he
        rcases List.mem_cons.mp he with h1 | h1
        · rw [h1]
          exact ⟨hqv.1, by have := hqv.2; dsimp only at this ⊢; linarith⟩
        · exact hrest e h1
    · rw [addEntry, if_neg hqk]
      obtain ⟨ihnd, ihall⟩ := ih hnd.2 hrest
      refine ⟨?_, ?_⟩
      · rw [List.map_cons, List.nodup_cons]
        refine ⟨?_, ihnd⟩
        intro hmem
        rcases addEntry_keys q hmem with h1 | h1
        · exact hnd.1 h1
        · exact hqk h1
      · intro e he
        rcases List.mem_cons.mp he with h1 | h1
        · rw [h1]; exact hqv
        · exact ihall e h1

theorem normalizeResourceMap_sound (m : Option CostMap) (fk : Option String) :
    ((normalizeResourceMap m fk).map Prod.fst).Nodup ∧
      ∀ e ∈ normalizeResourceMap m fk,
        normalizeResourceKey e.1 = some e.1 ∧ 0 < e.2 := by
  cases m with
  | none => exact ⟨List.nodup_nil, by intro e he; simp [normalizeResourceMap] at he⟩
  | some cm =>
    cases cm with
    | num n =>
      rw [show normalizeResourceMap (some (.num n)) fk =
          (match fk.bind normalizeResourceKey with
            | some k => if 0 < safeAmount n then [(k, safeAmount n)] else []
            | none => []) from rfl]
      cases hfk : fk.bind normalizeResourceKey with
      | none =>
        dsimp only
        exact ⟨List.nodup_nil, by intro e he; simp at he⟩
      | some k =>
        dsimp only
        have hk : normalizeResourceKey k = some k := by
          cases fk with
          | none => simp at hfk
          | some s =>
            simp only [Option.some_bind] at hfk
            exact normKey_idem hfk
        by_cases hpos : 0 < safeAmount n
        · rw [if_pos hpos]
          refine ⟨by simp, ?_⟩
          intro e he
          simp only [List.mem_singleton] at he
          rw [he]
          exact ⟨hk, hpos⟩
        · rw [if_neg hpos]
          exact ⟨List.nodup_nil, by intro e he; simp at he⟩
    | obj entries =>
      have hgen : ∀ (l : List (String × ℚ)) (out : List (String × ℚ)),
          ((out.map Prod.fst).Nodup ∧
            ∀ e ∈ out, normalizeResourceKey e.1 = some e.1 ∧ 0 < e.2) →
          (((l.foldl (fun out e =>
              match normalizeResourceKey e.1 with
              | some k => if 0 < safeAmount e.2 then addEntry out k (safeAmount e.2) else out
              | none => out) out).map Prod.fst).Nodup ∧
            ∀ e ∈ l.foldl (fun out e =>
              match normalizeResourceKey e.1 with
              | some k => if 0 < safeAmount e.2 then addEntry out k (safeAmount e.2) else out
              | none => out) out,
              normalizeResourceKey e.1 = some e.1 ∧ 0 < e.2) := by
        intro l
        induction l with
        | nil => intro out h; exact h
        | cons x rest ih =>
          intro out h
          rw [List.foldl_cons]
          cases hn : normalizeResourceKey x.1 with
          | none => exact ih out h
          | some k =>
            dsimp only
            by_cases hpos : 0 < safeAmount x.2
            · rw [if_pos hpos]
              exact ih _ (addEntry_sound h.1 h.2 (normKey_idem hn) hpos)
            · rw [if_neg hpos]
              exact ih out h
      exact hgen entries [] ⟨List.nodup_nil, by intro e he; simp at he⟩

theorem validate_ok_iff (pl : Player) (m : Option CostMap) (fk : Option String) :
    (validateResourceCost pl m fk).ok = true ↔
      ∀ e ∈ normalizeResourceMap m fk, entryMissing pl e = false := by
  unfold validateResourceCost
  dsimp only
  rw [List.isEmpty_iff, List.filterMap_eq_nil]
  constructor
  · intro h e he
    have hthis := h e he
    unfold entryMissing
    cases hl : lookupRes pl e.1 with
    | none =>
      rw [hl] at hthis
      dsimp only at hthis
      simp at hthis
    | some pool =>
      rw [hl] at hthis
      dsimp only at hthis
      dsimp only
      by_cases hc : pool.current < e.2
      · rw [if_pos hc] at hthis; simp at hthis
      · simp [hc]
  · intro h e he
    have hthis := h e he
    unfold entryMissing at hthis
    cases hl : lookupRes pl e.1 with
    | none =>
      rw [hl] at hthis
      dsimp only at hthis
      simp at hthis
    | some pool =>
      rw [hl] at hthis
      dsimp only at hthis
      dsimp only
      have hc : ¬pool.current < e.2 := by
        by_contra hcc
        simp [hcc] at hthis
      rw [if_neg hc]

theorem not_missing_lookup {pl : Player} {e : String × ℚ}
    (h : entryMissing pl e = false) :
    ∃ p : Pool, lookupRes pl e.1 = some p ∧ e.2 ≤ p.current := by
  unfold entryMissing at h
  cases hl : lookupRes pl e.1 with
  | none =>
    rw [hl] at h
    dsimp only at h
    simp at h
  | some p =>
    rw [hl] at h
    dsimp only at h
    refine ⟨p, rfl, ?_⟩
    have := of_decide_eq_false h
    linarith

theorem adjustResource_resources {pl : Player} {key canonical : String}
    {p : Pool} (delta : ℚ)
    (hk : normalizeResourceKey key = some canonical)
    (hl : lookupRes pl canonical = some p) :
    (adjustResource pl key delta).1.resources =
      aupdate pl.resources canonical
        { p with current := clampValue (p.current + delta) 0 (clampMin p.max 0) } := by
  unfold adjustResource
  rw [hk]
  dsimp only
  rw [hl]

theorem payEntries_spec (entries : List (String × ℚ)) :
    ∀ pl : Player,
      (entries.map Prod.fst).Nodup →
      (∀ e ∈ entries, normalizeResourceKey e.1 = some e.1) →
      (∀ e ∈ entries, ∃ p : Pool, lookupRes pl e.1 = some p) →
      (∀ k, k ∉ entries.map Prod.fst →
        lookupRes (payEntries pl entries).1 k = lookupRes pl k) ∧
      (∀ e ∈ entries, ∃ p : Pool, lookupRes pl e.1 = some p ∧
        lookupRes (payEntries pl entries).1 e.1 =
          some { p with current := clampValue (p.current - e.2) 0 (clampMin p.max 0) }) := by
  induction entries with
  | nil =>
    intro pl _ _ _
    exact ⟨fun k _ => rfl, by intro e he; simp at he⟩
  | cons e rest ih =>
    intro pl hnd hcanon hpools
    rw [List.map_cons, List.nodup_cons] at hnd
    obtain ⟨p, hp⟩ := hpools e (List.mem_cons_self _ _)
    have hck := hcanon e (List.mem_cons_self _ _)
    have hres := adjustResource_resources (-e.2) hck hp
    have hstep1 : lookupRes (adjustResource pl e.1 (-e.2)).1 e.1 =
        some { p with current := clampValue (p.current - e.2) 0 (clampMin p.max 0) } := by
      show alookup (adjustResource pl e.1 (-e.2)).1.resources e.1 = _
      rw [hres, ← sub_eq_add_neg]
      exact alookup_aupdate_self hp _
    have hstep2 : ∀ k, k ≠ e.1 →
        lookupRes (adjustResource pl e.1 (-e.2)).1 k = lookupRes pl k := by
      intro k hkne
      show alookup (adjustResource pl e.1 (-e.2)).1.resources k = _
      rw [hres]
      exact alookup_aupdate_other _ _ _ hkne
    have hrest_pools : ∀ e' ∈ rest, ∃ p' : Pool,
        lookupRes (adjustResource pl e.1 (-e.2)).1 e'.1 = some p' := by
      intro e' he'
      obtain ⟨p', hp'⟩ := hpools e' (List.mem_cons_of_mem _ he')
      have hne : e'.1 ≠ e.1 := by
        intro hcontra
        exact hnd.1 (hcontra ▸ List.mem_map_of_mem Prod.fst he')
      exact ⟨p', (hstep2 e'.1 hne).trans hp'⟩
    obtain ⟨ihout, ihdelta⟩ := ih (adjustResource pl e.1 (-e.2)).1 hnd.2
      (fun e' he' => hcanon e' (List.mem_cons_of_mem _ he')) hrest_pools
    have hpay : payEntries pl (e :: rest) =
        ((payEntries (adjustResource pl e.1 (-e.2)).1 rest).1,
          match (adjustResource pl e.1 (-e.2)).2 with
          | some d => d :: (payEntries (adjustResource pl e.1 (-e.2)).1 rest).2
          | none => (payEntries (adjustResource pl e.1 (-e.2)).1 rest).2) := rfl
    refine ⟨?_, ?_⟩
    · intro k hk
      rw [List.map_cons, List.mem_cons] at hk
      push_neg at hk
      rw [hpay]
      dsimp only
      rw [ihout k hk.2]
      exact hstep2 k hk.1
    · intro e' he'
      rcases List.mem_cons.mp he' with h1 | h1
      · subst h1
        refine ⟨p, hp, ?_⟩
        rw [hpay]
        dsimp only
        have hnotin : e'.1 ∉ rest.map Prod.fst := hnd.1
        rw [ihout e'.1 hnotin]
        exact hstep1
      · obtain ⟨p', hp', hp'out⟩ := ihdelta e' h1
        have hne : e'.1 ≠ e.1 := by
          intro hcontra
          exact hnd.1 (hcontra ▸ List.mem_map_of_mem Prod.fst h1)
        refine ⟨p', ?_, ?_⟩
        · exact (hstep2 e'.1 hne).symm.trans hp'
        · rw [hpay]
          dsimp only
          exact hp'out

/-- C3.  `applyResourceCost` is all-or-nothing: when some normalized
cost entry has no pool or exceeds its pool's current value, the call
reports failure and leaves the player untouched; otherwise it reports
success and deducts every entry's amount from its pool (clamped into
`[0, max(0, pool.max)]`), leaving all other pools unchanged. -/
theorem claim_C3_multi_cost_atomicity (pl : Player) (m : Option CostMap)
    (fk : Option String) :
    ((∃ e ∈ normalizeResourceMap m fk, entryMissing pl e = true) →
      (applyResourceCost pl m fk).ok = false ∧
      (applyResourceCost pl m fk).player = pl) ∧
    ((∀ e ∈ normalizeResourceMap m fk, entryMissing pl e = false) →
      (applyResourceCost pl m fk).ok = true ∧
      (∀ e ∈ normalizeResourceMap m fk, ∃ p : Pool,
        lookupRes pl e.1 = some p ∧ e.2 ≤ p.current ∧
        lookupRes (applyResourceCost pl m fk).player e.1 =
          some { p with current := clampValue (p.current - e.2) 0 (clampMin p.max 0) }) ∧
      (∀ k, k ∉ (normalizeResourceMap m fk).map Prod.fst →
        lookupRes (applyResourceCost pl m fk).player k = lookupRes pl k)) := by
  constructor
  · intro hex
    have hok : (validateResourceCost pl m fk).ok = false := by
      rw [← Bool.not_eq_true, validate_ok_iff]
      intro hall
      obtain ⟨e, he, hmiss⟩ := hex
      rw [hall e he] at hmiss
      exact Bool.false_ne_true hmiss
    have happ : applyResourceCost pl m fk =
        ⟨pl, (validateResourceCost pl m fk).ok,
          (validateResourceCost pl m fk).missing,
          (validateResourceCost pl m fk).entries, []⟩ := by
      unfold applyResourceCost
      simp only [hok, Bool.false_eq_true, if_false]
    rw [happ, hok]
    exact ⟨rfl, rfl⟩
  · intro hall
    have hok : (validateResourceCost pl m fk).ok = true :=
      (validate_ok_iff pl m fk).mpr hall
    have hentries : (validateResourceCost pl m fk).entries =
        normalizeResourceMap m fk := rfl
    obtain ⟨hnd, hsound⟩ := normalizeResourceMap_sound m fk
    have hpools : ∀ e ∈ normalizeResourceMap m fk, ∃ p : Pool,
        lookupRes pl e.1 = some p := by
      intro e he
      obtain ⟨p, hp, _⟩ := not_missing_lookup (hall e he)
      exact ⟨p, hp⟩
    obtain ⟨huntouched, hdeduct⟩ := payEntries_spec (normalizeResourceMap m fk) pl
      hnd (fun e he => (hsound e he).1) hpools
    have happ : applyResourceCost pl m fk =
        ⟨(payEntries pl (normalizeResourceMap m fk)).1, true,
          (validateResourceCost pl m fk).missing,
          normalizeResourceMap m fk,
          (payEntries pl (normalizeResourceMap m fk)).2⟩ := by
      unfold applyResourceCost
      simp only [hok, if_true]
      rfl
    refine ⟨by rw [happ], ?_, ?_⟩
    · intro e he
      obtain ⟨p, hp, hle⟩ := not_missing_lookup (hall e he)
      obtain ⟨p', hp', hout⟩ := hdeduct e he
      rw [hp] at hp'
      injection hp' with hp'
      subst hp'
      refine ⟨p, hp, hle, ?_⟩
      rw [happ]
      exact hout
    · intro k hk
      rw [happ]
      exact huntouched k hk

/-- Witness for C3 at the spec's scenario: a combatant with
`mana 10/10` and `stamina 3/100` attempting a `{mana: 5, stamina: 5}`
cost deducts neither resource and reports failure. -/
theorem claim_C3_multi_cost_atomicity_witness :
    (applyResourceCost
        (Player.mk []
          [("mana", Pool.mk "Mana" 10 10 0 none),
           ("stamina", Pool.mk "Stamina" 3 100 0 none)])
        (some (.obj [("mana", 5), ("stamina", 5)])) none).ok = false ∧
    (applyResourceCost
        (Player.mk []
          [("mana", Pool.mk "Mana" 10 10 0 none),
           ("stamina", Pool.mk "Stamina" 3 100 0 none)])
        (some (.obj [("mana", 5), ("stamina", 5)])) none).player =
      Player.mk []
        [("mana", Pool.mk "Mana" 10 10 0 none),
         ("stamina", Pool.mk "Stamina" 3 100 0 none)] :=
  (claim_C3_multi_cost_atomicity
    (Player.mk []
      [("mana", Pool.mk "Mana" 10 10 0 none),
       ("stamina", Pool.mk "Stamina" 3 100 0 none)])
    (some (.obj [("mana", 5), ("stamina", 5)])) none).1
    ⟨("stamina", 5), by decide, by decide⟩

/-! ## Resource max resolution (claim C9, corrected) -/

/-- C9 counterexample.  A stamina pool without declared max or tied
stat on a combatant carrying a legacy `staminaMax = 50` field:
`computeResourceMax` resolves the combatant's `<key>Max` field (50)
before the domain default, while the claimed order (explicit max →
tied stat → domain default → 0) yields the stamina default 100. -/
theorem claim_C9_counterexample :
    computeResourceMax "stamina" (ResDefn.mk none none)
        (Player.mk [("staminaMax", 50)] []) = 50 ∧
      claimedResourceMaxOrder "stamina" (ResDefn.mk none none)
        (Player.mk [("staminaMax", 50)] []) = 100 ∧
      computeResourceMax "stamina" (ResDefn.mk none none)
          (Player.mk [("staminaMax", 50)] []) ≠
        claimedResourceMaxOrder "stamina" (ResDefn.mk none none)
          (Player.mk [("staminaMax", 50)] []) := by
  refine ⟨?_, ?_, ?_⟩ <;> decide

/-- C9 amended.  The pool maximum resolves in exactly this order:
explicit declared max, else the named tied stat on the combatant, else
the combatant's `<key>Max` field, else (for mana) the legacy
`mpMax`/`mp` fields, else the domain default for the resource kind,
else 0 — every step clamped to be non-negative. -/
theorem claim_C9_amended_resolution (key : String) (rdef : ResDefn) (pl : Player) :
    computeResourceMax key rdef pl = amendedResourceMaxOrder key rdef pl := by
  unfold computeResourceMax amendedResourceMaxOrder computeResourceMaxRest
  cases hm : rdef.max with
  | some m => simp [Option.or]
  | none =>
    dsimp only
    have hrest : ∀ tied : Option ℚ, tied = none →
        (match getField pl (key ++ "Max") with
          | some fromPlayerKey => clampMin fromPlayerKey 0
          | none =>
            if key = "mana" then
              match (getField pl "mpMax").or (getField pl "mp") with
              | some mp => clampMin mp 0
              | none => clampMin (computeDefaultMax key pl) 0
            else clampMin (computeDefaultMax key pl) 0) =
          clampMin
            (((((Option.none.or tied).or (getField pl (key ++ "Max"))).or
                (if key = "mana" then (getField pl "mpMax").or (getField pl "mp")
                 else none)).getD (computeDefaultMax key pl))) 0 := by
      intro tied htied
      subst htied
      simp only [Option.or]
      cases hpk : getField pl (key ++ "Max") with
      | some v => rfl
      | none =>
        dsimp only
        by_cases hmana : key = "mana"
        · rw [if_pos hmana, if_pos hmana]
          cases hmx : getField pl "mpMax" with
          | some a => rfl
          | none =>
            cases hmp2 : getField pl "mp" with
            | some b => rfl
            | none => rfl
        · rw [if_neg hmana, if_neg hmana]
          rfl
    cases hs : rdef.maxFromStat with
    | none =>
      dsimp only [Option.none_bind]
      exact hrest none rfl
    | some statName =>
      dsimp only [Option.some_bind]
      by_cases hempty : statName = ""
      · rw [if_pos hempty, if_pos hempty]
        exact hrest none rfl
      · rw [if_neg hempty, if_neg hempty]
        cases hstat : getField pl statName with
        | some v => simp [Option.or]
        | none =>
          dsimp only
          exact hrest none rfl

/-! ## resolveAttack's resource gate (claim C10, corrected) -/

/-- C10 counterexample.  An ability with no `mpCost` (so a
non-positive cost of 0) is still rejected `INSUFFICIENT_RESOURCE`
when the attacker's normalized mp is negative (`resources.mp = −1`):
the "never rejected without a positive mpCost" consequence of the
claim fails. -/
theorem claim_C10_counterexample :
    (Ability.mk "Strike" "physical" 3 none none none none none).mpCost.getD 0 ≤ 0 ∧
      resolveAttack (RawActor.mk none [] [] [("mp", -1)])
          (RawActor.mk none [] [] [])
          (Ability.mk "Strike" "physical" 3 none none none none none) 70 0 0 =
        .insufficient "mp" 0 := by
  refine ⟨by decide, ?_⟩
  decide

/-- C10 amended.  `resolveAttack` rejects `INSUFFICIENT_RESOURCE` iff
the ability's `mpCost` (default 0) exceeds the attacker's normalized
mp — no other pool or cost field is consulted, and the rejection is
produced before any hit roll or damage computation (it is the same
for every pair of rng draws).  Consequently an ability without a
positive `mpCost` is never rejected for resources *provided the
attacker's normalized mp is non-negative*. -/
theorem claim_C10_amended_resource_gate (attacker defender : RawActor)
    (ability : Ability) (baseHitChance qh qv : ℚ) :
    (isInsufficientRes (resolveAttack attacker defender ability baseHitChance qh qv) =
        true ↔
      (defaultNormalizeActor attacker).mp < ability.mpCost.getD 0) ∧
    ((defaultNormalizeActor attacker).mp < ability.mpCost.getD 0 →
      resolveAttack attacker defender ability baseHitChance qh qv =
        .insufficient "mp" (ability.mpCost.getD 0)) ∧
    (0 ≤ (defaultNormalizeActor attacker).mp → ability.mpCost.getD 0 ≤ 0 →
      isInsufficientRes (resolveAttack attacker defender ability baseHitChance qh qv) =
        false) := by
  by_cases hmp : ability.mpCost.getD 0 ≤ (defaultNormalizeActor attacker).mp
  · have hres : ∀ qh' qv' : ℚ,
        isInsufficientRes (resolveAttack attacker defender ability baseHitChance qh' qv') =
          false := by
      intro qh' qv'
      unfold resolveAttack
      rw [if_pos hmp]
      dsimp only
      by_cases hhit : (computeHit (defaultNormalizeActor attacker)
          (defaultNormalizeActor defender) ability baseHitChance qh').hit
      · rw [if_pos hhit]; rfl
      · rw [if_neg hhit]; rfl
    refine ⟨?_, ?_, fun _ _ => hres qh qv⟩
    · rw [hres qh qv]
      simp only [Bool.false_eq_true, false_iff, not_lt]
      exact hmp
    · intro hlt
      exact absurd hmp (not_le.mpr hlt)
  · have hres : resolveAttack attacker defender ability baseHitChance qh qv =
        .insufficient "mp" (ability.mpCost.getD 0) := by
      unfold resolveAttack
      rw [if_neg hmp]
    refine ⟨?_, fun _ => hres, ?_⟩
    · rw [hres]
      simp only [isInsufficientRes, true_iff]
      exact not_le.mp hmp
    · intro h0 hc
      exact absurd (le_trans hc h0) hmp

/-- Witness for the amended C10: an attacker with normalized mp 0
attempting a 5-mp ability is rejected before any roll. -/
theorem claim_C10_amended_resource_gate_witness :
    resolveAttack (RawActor.mk none [] [] [("mp", 0)])
        (RawActor.mk none [] [] [])
        (Ability.mk "Bolt" "magic" 5 none none none none (some 5)) 70 0 0 =
      .insufficient "mp" 5 := by
  have h := (claim_C10_amended_resource_gate
    (RawActor.mk none [] [] [("mp", 0)])
    (RawActor.mk none [] [] [])
    (Ability.mk "Bolt" "magic" 5 none none none none (some 5)) 70 0 0).2.1
    (by decide)
  simpa using h

end Shardbound
